import Mathlib

/-!
Verification of the real-time scanner core of the daytrading platform.

The definitions below are a shallow embedding of the Python sources:

* `scanner/services/trading_day.py` (trading-day calendar),
* `scanner/services/types.py` (the 1-minute bar record),
* `scanner/services/engine.py` (metrics, rule gate, cooldown gate),
* `scanner/services/barstore_redis.py` (bar store and HOD state),
* `scanner/tasks.py` (push-notification worker).

Conventions: instants are UTC epoch seconds as `Int`; prices and volumes
(Python floats) are modelled as `ℚ`; fallible parsing is modelled with
`Option`.  The IANA timezone database entry `America/New_York`, which the
source uses through `zoneinfo.ZoneInfo`, is embedded below by the post-2007
US daylight-saving rule (EDT from 02:00 local on the second Sunday of March
to 02:00 local on the first Sunday of November, offsets −4 h / −5 h).
-/

/- ### Civil calendar (days ↔ dates), Hinnant's algorithm

`daysFromCivil`/`civilFromDays` convert between a Gregorian date and a count
of days since 1970-01-01.  They embed the date arithmetic that CPython's
`datetime.date` performs (both are the standard proleptic Gregorian
calendar); `Int` division `/` is Euclidean division, which coincides with
floor division for the positive divisors used here. -/

/-- Days since 1970-01-01 of the civil date `(y, m, d)`. -/
def daysFromCivil (y m d : Int) : Int :=
  let yy := if m ≤ 2 then y - 1 else y
  let era := yy / 400
  let yoe := yy - era * 400
  let doy := (153 * (m + (if 2 < m then -3 else 9)) + 2) / 5 + d - 1
  let doe := yoe * 365 + yoe / 4 - yoe / 100 + doy
  era * 146097 + doe - 719468

/-- Era (400-year block) of a days-since-epoch count. -/
def eraOfDay (z : Int) : Int := (z + 719468) / 146097

/-- Day-of-era of a days-since-epoch count. -/
def doeOfDay (z : Int) : Int := z + 719468 - eraOfDay z * 146097

/-- Year-of-era from a day-of-era. -/
def yoeOfDoe (doe : Int) : Int :=
  (doe - doe / 1460 + doe / 36524 - doe / 146096) / 365

/-- Day-of-year (March-based) from a day-of-era and its year-of-era. -/
def doyOfDoe (doe yoe : Int) : Int := doe - (365 * yoe + yoe / 4 - yoe / 100)

/-- Civil date `(year, month, day)` of a days-since-epoch count. -/
def civilFromDays (z : Int) : Int × Int × Int :=
  let doe := doeOfDay z
  let yoe := yoeOfDoe doe
  let y := yoe + eraOfDay z * 400
  let doy := doyOfDoe doe yoe
  let mp := (5 * doy + 2) / 153
  let d := doy - (153 * mp + 2) / 5 + 1
  let m := mp + (if mp < 10 then 3 else -9)
  (y + (if m ≤ 2 then 1 else 0), m, d)

/-- Year of the civil date of a days-since-epoch count. -/
def yearOfDay (z : Int) : Int := (civilFromDays z).1
/- ### The America/New_York daylight-saving rule (post-2007)

`zoneinfo.ZoneInfo("America/New_York")` is embedded by its rule for modern
dates: daylight time runs from 02:00 local on the second Sunday of March to
02:00 local on the first Sunday of November; the offset is −4 h (EDT) inside
the window and −5 h (EST) outside.  Day 0 is 1970-01-01, a Thursday, so
`(z + 4) % 7 = 0` characterises Sundays. -/

/-- Epoch day of the second Sunday of March of year `y`. -/
def secondSundayMarch (y : Int) : Int :=
  let m1 := daysFromCivil y 3 1
  m1 + (7 - (m1 + 4) % 7) % 7 + 7

/-- Epoch day of the first Sunday of November of year `y`. -/
def firstSundayNov (y : Int) : Int :=
  let n1 := daysFromCivil y 11 1
  n1 + (7 - (n1 + 4) % 7) % 7

/-- Wall-clock second (seconds since epoch measured on the local clock) at
which daylight time starts: 02:00 local, second Sunday of March. -/
def dstWallStart (y : Int) : Int := secondSundayMarch y * 86400 + 7200

/-- Wall-clock second at which daylight time ends: 02:00 local (daylight
reading), first Sunday of November. -/
def dstWallEnd (y : Int) : Int := firstSundayNov y * 86400 + 7200

/-- Offset in seconds (local − UTC) used to resolve a local New York
wall-clock time, fold-0 semantics.  Exact for wall times away from the
transition gap/fold; in particular for the 04:00 day-start boundary the
source resolves. -/
def nyOffsetLocal (w : Int) : Int :=
  let y := yearOfDay (w / 86400)
  if dstWallStart y ≤ w ∧ w < dstWallEnd y then -14400 else -18000

/-- Offset in seconds (local − UTC) of New York at the UTC instant `t`.
Daylight time starts at instant `dstWallStart y + 18000` (02:00 EST) and
ends at `dstWallEnd y + 14400` (02:00 EDT); the governing year is read from
the standard-time wall clock. -/
def nyOffsetUtc (t : Int) : Int :=
  let y := yearOfDay ((t - 18000) / 86400)
  if dstWallStart y + 18000 ≤ t ∧ t < dstWallEnd y + 14400 then -14400 else -18000
/- ### The trading-day calendar (`scanner/services/trading_day.py`) -/

/-- New York wall-clock time of the UTC instant `t` (the instant the source
renders as `ts_et`). -/
def etWall (t : Int) : Int := t + nyOffsetUtc t

/-- New York local date (as an epoch-day count) of the UTC instant `t`:
`ts_et.date()`. -/
def etDate (t : Int) : Int := etWall t / 86400

/-- The instant of `datetime.combine(ts_et.date(), time(4, 0, tzinfo=ET))`:
04:00 local on the instant's local date, resolved through the zone. -/
def boundaryInstant (t : Int) : Int :=
  etDate t * 86400 + 14400 - nyOffsetLocal (etDate t * 86400 + 14400)

/-- The local date chosen as the trading day: the previous local date when
`ts_et < boundary_dt` (an aware-datetime, i.e. instant, comparison), else
the current local date. -/
def tradingDayDate (t : Int) : Int :=
  if t < boundaryInstant t then etDate t - 1 else etDate t

/-- Two-digit zero-padded rendering (strftime `%m` / `%d`). -/
def pad2 (n : Int) : String := if n < 10 then "0" ++ toString n else toString n

/-- `day_date.strftime("%Y%m%d")`. -/
def renderDayId (d : Int) : String :=
  let c := civilFromDays d
  toString c.1 ++ pad2 c.2.1 ++ pad2 c.2.2

/-- The `TradingDay` dataclass of the source. -/
structure TradingDay where
  day_id : String
  start_utc : Int
  end_utc : Int
deriving DecidableEq

/-- A Python `datetime` as the source receives it: a wall-clock reading plus
an optional UTC offset (`None` for a naive value). -/
structure PyDateTime where
  wall : Int
  utcOffset : Option Int
deriving DecidableEq

/-- `_ensure_utc`: a naive datetime is interpreted as UTC, an aware one is
converted to UTC (instant = wall − offset). -/
def ensureUtc (d : PyDateTime) : Int :=
  match d.utcOffset with
  | none => d.wall
  | some o => d.wall - o

/-- `trading_day_for_utc`: trading day of an instant, with 04:00 America/New_York
day-start boundary.  `end_et = start_et + timedelta(days=1)` is wall-clock
arithmetic on the aware datetime, hence `endWall = startWall + 86400` before
resolving to UTC. -/
def tradingDayForUtc (d : PyDateTime) : TradingDay :=
  let t := ensureUtc d
  let dayDate := tradingDayDate t
  { day_id := renderDayId dayDate,
    start_utc := dayDate * 86400 + 14400 - nyOffsetLocal (dayDate * 86400 + 14400),
    end_utc := dayDate * 86400 + 14400 + 86400 -
      nyOffsetLocal (dayDate * 86400 + 14400 + 86400) }

/-- `trading_day_id`. -/
def tradingDayId (d : PyDateTime) : String := (tradingDayForUtc d).day_id


/- ### Bars and metrics (`scanner/services/types.py`, `engine.py`) -/

/-- The `Bar1m` dataclass: a 1-minute OHLCV bar.  `ts` is a UTC instant,
prices and volume are floats, modelled as rationals. -/
structure Bar1m where
  ts : Int
  o : ℚ
  h : ℚ
  l : ℚ
  c : ℚ
  v : ℚ
deriving DecidableEq

/-- The frozen `Metrics` dataclass computed per symbol each tick. -/
structure Metrics where
  symbol : String
  bar : Bar1m
  vol_1m : ℚ
  vol_5m : ℚ
  avg_vol_1m_lookback : ℚ
  rvol_1m : ℚ
  rvol_5m : ℚ
  pct_change_1m : ℚ
  pct_change_5m : ℚ
  hod : ℚ
  broke_hod : Bool
  score : ℚ
  reason_tags : List String
deriving DecidableEq

/-- The fields of the singleton `ScannerConfig` model that the engine
reads.  `cooldown_minutes` and `rvol_lookback_minutes` are integer fields;
thresholds are floats. -/
structure ScannerConfig where
  enabled : Bool
  min_vol_1m : ℚ
  rvol_lookback_minutes : Int
  rvol_1m_threshold : ℚ
  rvol_5m_threshold : ℚ
  min_pct_change_1m : ℚ
  min_pct_change_5m : ℚ
  require_green_candle : Bool
  require_hod_break : Bool
  cooldown_minutes : Int
  realert_on_new_hod : Bool
deriving DecidableEq

/-- `_avg`: mean of a list, `0.0` for the empty list (the `max(len, 1)`
denominator guard of the source is kept). -/
def listAvg (values : List ℚ) : ℚ :=
  if values = [] then 0 else values.sum / max (values.length : ℚ) 1

/-- Python's built-in `max` over a (nonempty) sequence; `0` in the
never-reached empty case. -/
def pyMax (l : List ℚ) : ℚ :=
  match l with
  | [] => 0
  | x :: xs => xs.foldl max x

/-- The out-of-range default for list indexing the guards make unreachable. -/
def dfltBar : Bar1m := ⟨0, 0, 0, 0, 0, 0⟩

/-- `compute_metrics(symbol, bars, lookback_minutes, hod, prior_hod)`.

Bars are oldest-first; `None` when fewer than 6 bars.  Baselines are the
hardcoded `max(5, 45)` / `max(10, 90)` minutes of the source
(`lookback_minutes` is accepted but, as in the source, not used beyond the
signature).  The `hod = float(hod or 0.0)` line of the source is the
identity on a float `hod` (`0.0 or 0.0 == 0.0`), so `hod` is passed
through.  When `prior_hod` is absent, the source falls back to the maximum
high over all bars but the last (`len(bars) ≥ 2` always holds here, and
`max` of a nonempty sequence does not raise). -/
def computeMetrics (symbol : String) (bars : List Bar1m) (lookback_minutes : Int)
    (hod : ℚ) (prior_hod : Option ℚ) : Option Metrics :=
  if bars = [] then none
  else if bars.length < 6 then none
  else
    let last := bars.getD (bars.length - 1) dfltBar
    let prev := bars.getD (bars.length - 2) dfltBar
    let last5 := bars.drop (bars.length - 5)
    let prev5 := bars.getD (bars.length - 6) dfltBar
    let vol_1m := last.v
    let vol_5m := (last5.map (·.v)).sum
    let base_1m : Int := max 5 45
    let base_5m : Int := max 10 90
    let availExclLast : Int := bars.length - 1
    let lb_1m := min base_1m availExclLast
    let slice_1m := if 0 < lb_1m then (bars.dropLast).drop (bars.dropLast.length - lb_1m.toNat)
      else []
    let avg_vol_1m := listAvg (slice_1m.map (·.v))
    let lb_5m := min base_5m availExclLast
    let slice_5m := if 0 < lb_5m then (bars.dropLast).drop (bars.dropLast.length - lb_5m.toNat)
      else []
    let vols := slice_5m.map (·.v)
    let rolling_5m_sums := if 5 ≤ vols.length then
        (List.range (vols.length - 4)).map (fun i => ((vols.drop i).take 5).sum)
      else []
    let avg_vol_5m := listAvg rolling_5m_sums
    let rvol_1m := vol_1m / max avg_vol_1m 1
    let rvol_5m := vol_5m / max avg_vol_5m 1
    let pct_change_1m := (last.c - prev.c) / max prev.c (1 / 1000000000) * 100
    let pct_change_5m := (last.c - prev5.c) / max prev5.c (1 / 1000000000) * 100
    let ph := match prior_hod with
      | some p => some p
      | none => if 2 ≤ bars.length then some (pyMax ((bars.dropLast).map (·.h))) else none
    let broke_hod := match ph with
      | some p => decide (p < last.h)
      | none => false
    let score := min rvol_1m 20 * 5 + min (max pct_change_1m 0) 10 * 4 +
      (if broke_hod then (20 : ℚ) else 0)
    let reason_tags :=
      (if 1 ≤ rvol_1m then ["RVOL_1M"] else []) ++
      (if 1 ≤ rvol_5m then ["RVOL_5M"] else []) ++
      (if 0 ≤ pct_change_1m then ["UP_1M"] else []) ++
      (if broke_hod then ["HOD_BREAK"] else [])
    some ⟨symbol, last, vol_1m, vol_5m, avg_vol_1m, rvol_1m, rvol_5m,
      pct_change_1m, pct_change_5m, hod, broke_hod, score, reason_tags⟩

/-- `should_trigger(m, cfg)`: the rule gate, returning the decision and the
threshold tags collected on success. -/
def shouldTrigger (m : Metrics) (cfg : ScannerConfig) : Bool × List String :=
  if m.vol_1m < cfg.min_vol_1m then (false, [])
  else if m.rvol_1m < cfg.rvol_1m_threshold ∧ m.rvol_5m < cfg.rvol_5m_threshold then
    (false, [])
  else
    let price_ok0 := decide (cfg.min_pct_change_1m ≤ m.pct_change_1m) ||
      decide (cfg.min_pct_change_5m ≤ m.pct_change_5m)
    let price_ok := if cfg.require_hod_break then price_ok0 && m.broke_hod else price_ok0
    if !price_ok then (false, [])
    else if cfg.require_green_candle && !decide (m.bar.o ≤ m.bar.c) then (false, [])
    else
      let tags :=
        (if cfg.rvol_1m_threshold ≤ m.rvol_1m then ["RVOL_1M_THR"] else []) ++
        (if cfg.rvol_5m_threshold ≤ m.rvol_5m then ["RVOL_5M_THR"] else []) ++
        (if cfg.min_pct_change_1m ≤ m.pct_change_1m then ["PCT_1M_THR"] else []) ++
        (if cfg.min_pct_change_5m ≤ m.pct_change_5m then ["PCT_5M_THR"] else []) ++
        (if m.broke_hod then ["HOD_BREAK"] else [])
      (true, tags)

/-- The fields of the most recent stored `ScannerTriggerEvent` for a symbol
that the cooldown gate reads (`.only("id", "triggered_at", "hod")`); `hod`
is a nullable float column. -/
structure StoredTriggerEvent where
  triggered_at : Int
  hod : Option ℚ
deriving DecidableEq

/-- `allow_trigger_with_cooldown(m, cfg, now)`.  `lastEv` is the result of
the query for the most recent event of the symbol (`None` when no prior
event exists).  `float(last_ev.hod or 0.0)` coalesces a null column to `0.0`
(and is the identity on any other float), hence `Option.getD 0`; likewise
`float(m.hod or 0.0)` is the identity on the float `m.hod`. -/
def allowTriggerWithCooldown (lastEv : Option StoredTriggerEvent) (m : Metrics)
    (cfg : ScannerConfig) (now : Int) : Bool :=
  let cutoff := now - 60 * cfg.cooldown_minutes
  match lastEv with
  | none => true
  | some ev =>
    if ev.triggered_at < cutoff then true
    else if !cfg.realert_on_new_hod then false
    else decide (ev.hod.getD 0 < m.hod)

/- ### The Redis bar store (`scanner/services/barstore_redis.py`) -/

/-- The stored state behind one `scanner:bars:{day}:{SYMBOL}` key: the list
of entries newest-first, and the key's TTL (`none` when no TTL was set). -/
structure BarListState where
  items : List Bar1m
  ttlSeconds : Option Int
deriving DecidableEq

/-- `push_bar(symbol, bar, keep)` on the state of its day-scoped key: the
pipeline runs `LPUSH` (prepend), `LTRIM 0 max(keep-1, 0)` (keep the first
`max(keep-1,0)+1` entries) and `EXPIRE 36h`. -/
def pushBar (st : BarListState) (bar : Bar1m) (keep : Int) : BarListState :=
  let maxI := max (keep - 1) 0
  { items := (bar :: st.items).take (maxI + 1).toNat,
    ttlSeconds := some (60 * 60 * 36) }

/-- The per-symbol core of `fetch_bars`: `LRANGE 0 (want-1)` over the
newest-first list, reversed to oldest-first, each entry JSON-parsed with
failures skipped.  A stored entry is modelled as `Option Bar1m`, `none`
standing for an entry whose parse raises. -/
def fetchBarsSym (raw : List (Option Bar1m)) (minutes : Int) : List Bar1m :=
  let want := max (minutes + 6) 10
  ((raw.take want.toNat).reverse).filterMap id

/-- The stored HOD record behind one `scanner:hod:{day}:{SYMBOL}` key. -/
structure HodState where
  hod : Option ℚ
  prev_hod : Option ℚ
  ts : Option Int
deriving DecidableEq

/-- `update_hod_state(symbol, day, bar_high, bar_ts)` on the stored record:
`hod := max(prior, h)` (or `h` when no prior), `prev_hod := prior`,
`ts := bar_ts`. -/
def updateHodState (st : HodState) (barHigh : ℚ) (barTs : Int) : HodState :=
  match st.hod with
  | none => { hod := some barHigh, prev_hod := none, ts := some barTs }
  | some prior =>
    { hod := some (max prior barHigh), prev_hod := some prior, ts := some barTs }

/-- `rebuild_hod_state_from_bars(symbol, day)` given the (oldest-first)
result of `fetch_all_bars`: on an empty list it stores nothing and returns
`(None, None, None)`; otherwise it stores and returns `hod = max(highs)`,
`prev_hod = max(highs[:-1])` when at least two bars exist, `ts = last.ts`.
The pair is (stored state after the call, returned triple). -/
def rebuildHodStateFromBars (st : HodState) (bars : List Bar1m) :
    HodState × (Option ℚ × Option ℚ × Option Int) :=
  if bars = [] then (st, (none, none, none))
  else
    let hod := pyMax (bars.map (·.h))
    let prev_hod := if 2 ≤ bars.length then some (pyMax ((bars.dropLast).map (·.h)))
      else none
    let ts := (bars.getLastD dfltBar).ts
    ({ hod := some hod, prev_hod := prev_hod, ts := some ts },
      (some hod, prev_hod, some ts))

/-- One writer step on a symbol's day-scoped HOD key: either the ingestor's
`update_hod_state` for a new bar, or a self-heal `rebuild_hod_state_from_bars`
against the stored bar list. -/
inductive HodOp where
  | update (h : ℚ) (ts : Int)
  | rebuild (bars : List Bar1m)

/-- Apply one HOD operation to the stored record. -/
def applyHodOp (st : HodState) (op : HodOp) : HodState :=
  match op with
  | .update h ts => updateHodState st h ts
  | .rebuild bars => (rebuildHodStateFromBars st bars).1

/-- Apply a sequence of HOD operations to the empty key. -/
def applyHodOps (ops : List HodOp) : HodState :=
  ops.foldl applyHodOp { hod := none, prev_hod := none, ts := none }

/-- The high of the bar an operation applies: the bar's high for `update`,
the last bar's high for a nonempty `rebuild`, nothing for an empty one. -/
def opLastHigh (op : HodOp) : Option ℚ :=
  match op with
  | .update h _ => some h
  | .rebuild [] => none
  | .rebuild bars => some ((bars.getLastD dfltBar).h)

/-- The high of the bar last applied over a sequence of operations. -/
def lastAppliedHigh (ops : List HodOp) : Option ℚ :=
  ops.foldl (fun acc op => (opLastHigh op).orElse (fun _ => acc)) none

/-- All bar highs an operation sequence carries are non-negative. -/
def opsNonneg (ops : List HodOp) : Prop :=
  ∀ op ∈ ops, match op with
    | HodOp.update h _ => 0 ≤ h
    | HodOp.rebuild bars => ∀ b ∈ bars, 0 ≤ b.h

/- ### The push-notification worker (`scanner/tasks.py`) -/

/-- The columns of a stored `ScannerTriggerEvent` the worker's gating
reads. -/
structure PushEvent where
  id : Int
  triggered_at : Int
  broke_hod : Bool
  reason_tags : List String
  score : Option ℚ
deriving DecidableEq

/-- A `UserScannerSettings` row as the worker's queryset and per-user gating
read it. -/
structure PushUserSettings where
  user_id : Int
  follow_alerts : Bool
  pushover_enabled : Bool
  pushover_user_key : String
  cleared_until : Option Int
  notify_only_hod_break : Bool
  notify_min_score : Option ℚ
deriving DecidableEq

/-- `_is_hod_break(ev)`: `broke_hod` or a `HOD_BREAK` reason tag. -/
def isHodBreak (ev : PushEvent) : Bool :=
  ev.broke_hod || ev.reason_tags.contains "HOD_BREAK"

/-- The idempotency cache key `scanner:pushover:sent:` + event id + `:` +
user id. -/
def pushoverSentKey (trigId userId : Int) : String :=
  "scanner:pushover:sent:" ++ toString trigId ++ ":" ++ toString userId

/-- The worker's queryset: `follow_alerts` and `pushover_enabled` set, a
non-empty user key, and `cleared_until` null or before the trigger time. -/
def notifyCandidates (users : List PushUserSettings) (trigTs : Int) :
    List PushUserSettings :=
  users.filter (fun s => s.follow_alerts && s.pushover_enabled &&
    !decide (s.pushover_user_key = "") &&
    (match s.cleared_until with
     | none => true
     | some cu => decide (cu < trigTs)))

/-- The body of the worker's per-user loop.  The accumulator carries the
cache key set and the recorded push attempts; a push attempt is recorded
exactly when `cache.add` succeeds (the send itself may fail afterwards, but
the attempt and the key remain). -/
def notifyStep (trigId : Int) (ev : PushEvent)
    (acc : List String × List (Int × Int)) (s : PushUserSettings) :
    List String × List (Int × Int) :=
  if s.pushover_user_key.trim = "" then acc
  else if s.notify_only_hod_break && !isHodBreak ev then acc
  else if (match s.notify_min_score with
    | some thr => match ev.score with
      | none => true
      | some sc => decide (sc < thr)
    | none => false) then acc
  else if pushoverSentKey trigId s.user_id ∈ acc.1 then acc
  else (pushoverSentKey trigId s.user_id :: acc.1, acc.2 ++ [(trigId, s.user_id)])

/-- One run of `scanner_notify_pushover_trigger(trigger_id)`: no-op without
an app token or when the event does not exist; otherwise the per-user loop
over the candidate queryset.  Returns the cache contents after the run and
the push attempts recorded during it. -/
def notifyPushoverRun (appToken : String) (events : List PushEvent) (trigId : Int)
    (users : List PushUserSettings) (cache : List String) :
    List String × List (Int × Int) :=
  if appToken.trim = "" then (cache, [])
  else
    match events.find? (fun e => decide (e.id = trigId)) with
    | none => (cache, [])
    | some ev => (notifyCandidates users ev.triggered_at).foldl (notifyStep trigId ev) (cache, [])

/-- Repeated worker runs for the same event id (each run may see a different
user set), within the idempotency TTL, against a persistent cache.  Returns
the final cache and all recorded push attempts. -/
def notifyPushoverRuns (appToken : String) (events : List PushEvent) (trigId : Int)
    (runs : List (List PushUserSettings)) (cache : List String) :
    List String × List (Int × Int) :=
  runs.foldl (fun acc users =>
    let r := notifyPushoverRun appToken events trigId users acc.1
    (r.1, acc.2 ++ r.2)) (cache, [])

/- ### Concrete instances used by witnesses and counterexamples -/

/-- A metrics record of a strong breakout candle. -/
def mEx : Metrics :=
  ⟨"ABC", ⟨300, 10, 11, 10, 11, 200000⟩, 200000, 300000, 1000, 8, 2, 2, 3, 11,
    true, 60, ["RVOL_1M"]⟩

/-- A configuration with every gate enabled and no re-alert. -/
def cfgEx : ScannerConfig :=
  ⟨true, 50000, 45, 4, 3, 1, 2, true, true, 15, false⟩

/-- A stored event one minute into the day with `hod = 11`. -/
def evEx : StoredTriggerEvent := ⟨60, some 11⟩

/-- Six flat bars whose last bar prints a new high (`h = 2` vs `1`). -/
def cexBars : List Bar1m :=
  [⟨0, 1, 1, 1, 1, 100⟩, ⟨60, 1, 1, 1, 1, 100⟩, ⟨120, 1, 1, 1, 1, 100⟩,
   ⟨180, 1, 1, 1, 1, 100⟩, ⟨240, 1, 1, 1, 1, 100⟩, ⟨300, 1, 2, 1, 1, 100⟩]

/-- A one-entry stored bar list. -/
def cexSt : BarListState := ⟨[⟨600, 1, 1, 1, 1, 100⟩], some 129600⟩

/-- A bar carrying the same timestamp as the head of `cexSt`. -/
def cexDup : Bar1m := ⟨600, 2, 2, 2, 2, 200⟩

/-- Ten parseable stored entries, newest-first. -/
def cexRaw10 : List (Option Bar1m) :=
  [some ⟨540, 1, 1, 1, 1, 9⟩, some ⟨480, 1, 1, 1, 1, 8⟩, some ⟨420, 1, 1, 1, 1, 7⟩,
   some ⟨360, 1, 1, 1, 1, 6⟩, some ⟨300, 1, 1, 1, 1, 5⟩, some ⟨240, 1, 1, 1, 1, 4⟩,
   some ⟨180, 1, 1, 1, 1, 3⟩, some ⟨120, 1, 1, 1, 1, 2⟩, some ⟨60, 1, 1, 1, 1, 1⟩,
   some ⟨0, 1, 1, 1, 1, 0⟩]

/-- Three parseable entries (newest-first) with one malformed entry. -/
def wRaw : List (Option Bar1m) :=
  [some ⟨120, 1, 3, 1, 2, 30⟩, none, some ⟨60, 1, 2, 1, 1, 20⟩,
   some ⟨0, 1, 1, 1, 1, 10⟩]

/-- Update, rebuild and update again with non-negative highs. -/
def wOps : List HodOp :=
  [HodOp.update 5 0, HodOp.rebuild [⟨0, 1, 2, 1, 1, 10⟩, ⟨60, 1, 3, 1, 1, 10⟩],
   HodOp.update 7 120]

/- ### Calendar and timezone lemmas -/
/- ### Calendar correctness lemmas

Inversion of the year component on the March–November span of a year, the
only range the daylight-saving computation has to read back. -/

theorem dfc_march1 (y : Int) :
    daysFromCivil y 3 1 =
      (y / 400) * 146097 +
        ((y - y / 400 * 400) * 365 + (y - y / 400 * 400) / 4 -
          (y - y / 400 * 400) / 100) - 719468 := by
  simp only [daysFromCivil]
  norm_num

theorem dfc_nov1 (y : Int) : daysFromCivil y 11 1 = daysFromCivil y 3 1 + 245 := by
  simp only [daysFromCivil]
  norm_num
  omega

theorem ediv_1460_start (r : Int) (h1 : 0 ≤ r) (h2 : r ≤ 399) :
    (365 * r + r / 4 - r / 100) / 1460 = r / 4 := by omega

theorem ediv_36524_start (r : Int) (h1 : 0 ≤ r) (h2 : r ≤ 399) :
    (365 * r + r / 4 - r / 100) / 36524 = r / 100 := by omega

theorem ediv_1460_end (r : Int) (h1 : 0 ≤ r) (h2 : r ≤ 399) :
    r / 4 ≤ (365 * r + r / 4 - r / 100 + 364) / 1460 ∧
      (365 * r + r / 4 - r / 100 + 364) / 1460 ≤ r / 4 + 1 := by omega

theorem ediv_36524_end (r : Int) (h1 : 0 ≤ r) (h2 : r ≤ 399) :
    (365 * r + r / 4 - r / 100 + 364) / 36524 = r / 100 := by omega

theorem yoeExpr_mono (a b : Int) (h : a ≤ b) :
    a - a / 1460 + a / 36524 ≤ b - b / 1460 + b / 36524 := by omega

/-- The final division step of `yoeOfDoe`, isolated so that the arithmetic
context stays small. -/
theorem yoe_final (x r : Int) (h1 : 365 * r ≤ x - x / 1460 + x / 36524)
    (h2 : x - x / 1460 + x / 36524 ≤ 365 * r + 364) (h3 : x / 146096 = 0) :
    (x - x / 1460 + x / 36524 - x / 146096) / 365 = r := by omega

/-- The `/ 146096` term vanishes on every day-of-era that the window lemmas
touch. -/
theorem doe_div146096 (r doy : Int) (h1 : 0 ≤ r) (h2 : r ≤ 399)
    (h3 : 0 ≤ doy) (h4 : doy ≤ 364) :
    (365 * r + r / 4 - r / 100 + doy) / 146096 = 0 := by omega

/-- On days `0 ≤ doy ≤ 364` of a year-of-era `r`, `yoeOfDoe` reads the
year-of-era back from the day-of-era. -/
theorem yoeOfDoe_inv (r doy : Int) (h1 : 0 ≤ r) (h2 : r ≤ 399)
    (h3 : 0 ≤ doy) (h4 : doy ≤ 364) :
    yoeOfDoe (365 * r + r / 4 - r / 100 + doy) = r := by
  have e1a := ediv_1460_start r h1 h2
  have e1b := ediv_36524_start r h1 h2
  have e2a := ediv_1460_end r h1 h2
  have e2b := ediv_36524_end r h1 h2
  have hm1 := yoeExpr_mono (365 * r + r / 4 - r / 100)
    (365 * r + r / 4 - r / 100 + doy) (by linarith)
  have hm2 := yoeExpr_mono (365 * r + r / 4 - r / 100 + doy)
    (365 * r + r / 4 - r / 100 + 364) (by linarith)
  rw [e1a, e1b] at hm1
  rw [e2b] at hm2
  have hlow : 365 * r ≤ (365 * r + r / 4 - r / 100 + doy) -
      (365 * r + r / 4 - r / 100 + doy) / 1460 +
      (365 * r + r / 4 - r / 100 + doy) / 36524 := by linarith
  have hhigh : (365 * r + r / 4 - r / 100 + doy) -
      (365 * r + r / 4 - r / 100 + doy) / 1460 +
      (365 * r + r / 4 - r / 100 + doy) / 36524 ≤ 365 * r + 364 := by linarith
  simp only [yoeOfDoe]
  exact yoe_final _ r hlow hhigh (doe_div146096 r doy h1 h2 h3 h4)

/-- Reading the civil year back from a day count, given its era/day-of-era
decomposition with a March–November day-of-year. -/
theorem civilYear_of_doy (q r doy z : Int) (hr1 : 0 ≤ r) (hr2 : r ≤ 399)
    (hd1 : 0 ≤ doy) (hd2 : doy ≤ 251)
    (hera : eraOfDay z = q)
    (hdoe : doeOfDay z = 365 * r + r / 4 - r / 100 + doy) :
    yearOfDay z = 400 * q + r := by
  have hyoe : yoeOfDoe (365 * r + r / 4 - r / 100 + doy) = r :=
    yoeOfDoe_inv r doy hr1 hr2 hd1 (by omega)
  simp only [yearOfDay, civilFromDays, doyOfDoe, hdoe, hyoe, hera]
  split_ifs <;> omega

/-- On the March-8 to November-7 span of a civil year `y` (which contains
both daylight-saving transition Sundays), `yearOfDay` returns `y`. -/
theorem yearOfDay_window (y z : Int) (h1 : daysFromCivil y 3 1 + 7 ≤ z)
    (h2 : z ≤ daysFromCivil y 11 1 + 6) : yearOfDay z = y := by
  rw [dfc_nov1] at h2
  rw [dfc_march1] at h1 h2
  have hr1 : 0 ≤ y - y / 400 * 400 := by omega
  have hr2 : y - y / 400 * 400 ≤ 399 := by omega
  have hera : eraOfDay z = y / 400 := by
    simp only [eraOfDay]; omega
  have hdoe : doeOfDay z = 365 * (y - y / 400 * 400) + (y - y / 400 * 400) / 4 -
      (y - y / 400 * 400) / 100 +
      (z + 719468 - y / 400 * 146097 -
        (365 * (y - y / 400 * 400) + (y - y / 400 * 400) / 4 -
          (y - y / 400 * 400) / 100)) := by
    simp only [doeOfDay, hera]; ring
  have hy := civilYear_of_doy (y / 400) (y - y / 400 * 400)
    (z + 719468 - y / 400 * 146097 -
      (365 * (y - y / 400 * 400) + (y - y / 400 * 400) / 4 -
        (y - y / 400 * 400) / 100)) z hr1 hr2 (by omega) (by omega) hera hdoe
  omega
theorem secondSundayMarch_bounds (y : Int) :
    daysFromCivil y 3 1 + 7 ≤ secondSundayMarch y ∧
      secondSundayMarch y ≤ daysFromCivil y 3 1 + 13 := by
  simp only [secondSundayMarch]; omega

theorem firstSundayNov_bounds (y : Int) :
    daysFromCivil y 11 1 ≤ firstSundayNov y ∧
      firstSundayNov y ≤ daysFromCivil y 11 1 + 6 := by
  simp only [firstSundayNov]; omega

/-- Every day between the two transition Sundays of year `y` lies in civil
year `y`. -/
theorem yearOfDay_between (y z : Int) (h1 : secondSundayMarch y ≤ z)
    (h2 : z ≤ firstSundayNov y) : yearOfDay z = y := by
  have hs := secondSundayMarch_bounds y
  have hf := firstSundayNov_bounds y
  exact yearOfDay_window y z (by omega) (by omega)

theorem nyOffsetLocal_cases (w : Int) :
    nyOffsetLocal w = -14400 ∨ nyOffsetLocal w = -18000 := by
  simp only [nyOffsetLocal]; split_ifs <;> simp

theorem nyOffsetUtc_cases (t : Int) :
    nyOffsetUtc t = -14400 ∨ nyOffsetUtc t = -18000 := by
  simp only [nyOffsetUtc]; split_ifs <;> simp

/-- Key bridging fact: comparing the instant `t` against the resolved 04:00
boundary instant of its own local date (what the source's aware-datetime
comparison does) is the same as asking whether the local wall clock reads
before 04:00.  The two can only disagree when the instant offset and the
boundary offset differ, and the case analysis below shows the wall clock is
then always in the 00:00–02:00 band, far from 04:00. -/
theorem boundary_bridge (t : Int) :
    t < (t + nyOffsetUtc t) / 86400 * 86400 + 14400 -
        nyOffsetLocal ((t + nyOffsetUtc t) / 86400 * 86400 + 14400) ↔
      (t + nyOffsetUtc t) % 86400 < 14400 := by
  by_cases hu : dstWallStart (yearOfDay ((t - 18000) / 86400)) + 18000 ≤ t ∧
      t < dstWallEnd (yearOfDay ((t - 18000) / 86400)) + 14400
  · have hou : nyOffsetUtc t = -14400 := by
      simp only [nyOffsetUtc]; rw [if_pos hu]
    rw [hou]
    have ht : t + (-14400 : Int) = t - 14400 := by ring
    rw [ht]
    by_cases hl : dstWallStart (yearOfDay (((t - 14400) / 86400 * 86400 + 14400) / 86400)) ≤
          (t - 14400) / 86400 * 86400 + 14400 ∧
        (t - 14400) / 86400 * 86400 + 14400 <
          dstWallEnd (yearOfDay (((t - 14400) / 86400 * 86400 + 14400) / 86400))
    · have hol : nyOffsetLocal ((t - 14400) / 86400 * 86400 + 14400) = -14400 := by
        simp only [nyOffsetLocal]; rw [if_pos hl]
      rw [hol]
      omega
    · -- mismatch: instant in daylight time, boundary resolved as standard;
      -- then the local date is the fall-back Sunday with wall clock < 02:00
      have harg : ((t - 14400) / 86400 * 86400 + 14400) / 86400 = (t - 14400) / 86400 := by
        omega
      rw [harg] at hl
      simp only [dstWallStart, dstWallEnd] at hu hl
      have hyD : yearOfDay ((t - 14400) / 86400) = yearOfDay ((t - 18000) / 86400) := by
        apply yearOfDay_between
        · omega
        · omega
      rw [hyD] at hl
      have hol : nyOffsetLocal ((t - 14400) / 86400 * 86400 + 14400) = -18000 := by
        simp only [nyOffsetLocal, harg, hyD]
        rw [if_neg (by simpa only [dstWallStart, dstWallEnd] using hl)]
      rw [hol]
      omega
  · have hou : nyOffsetUtc t = -18000 := by
      simp only [nyOffsetUtc]; rw [if_neg hu]
    rw [hou]
    have ht : t + (-18000 : Int) = t - 18000 := by ring
    rw [ht]
    by_cases hl : dstWallStart (yearOfDay (((t - 18000) / 86400 * 86400 + 14400) / 86400)) ≤
          (t - 18000) / 86400 * 86400 + 14400 ∧
        (t - 18000) / 86400 * 86400 + 14400 <
          dstWallEnd (yearOfDay (((t - 18000) / 86400 * 86400 + 14400) / 86400))
    · -- mismatch: instant in standard time, boundary resolved as daylight;
      -- then the local date is the spring-forward Sunday, wall clock < 02:00
      have harg : ((t - 18000) / 86400 * 86400 + 14400) / 86400 = (t - 18000) / 86400 := by
        omega
      rw [harg] at hl
      have hol : nyOffsetLocal ((t - 18000) / 86400 * 86400 + 14400) = -14400 := by
        simp only [nyOffsetLocal, harg]
        rw [if_pos hl]
      rw [hol]
      simp only [dstWallStart, dstWallEnd] at hu hl
      omega
    · have harg : ((t - 18000) / 86400 * 86400 + 14400) / 86400 = (t - 18000) / 86400 := by
        omega
      rw [harg] at hl
      have hol : nyOffsetLocal ((t - 18000) / 86400 * 86400 + 14400) = -18000 := by
        simp only [nyOffsetLocal, harg]
        rw [if_neg hl]
      rw [hol]
      omega

/-- Resolving a local 04:00 wall time to an instant and asking for that
instant's offset gives back the offset the resolution used: 04:00 is never
inside the transition gap or fold. -/
theorem nyOffsetUtc_at_boundary (D : Int) :
    nyOffsetUtc (D * 86400 + 14400 - nyOffsetLocal (D * 86400 + 14400)) =
      nyOffsetLocal (D * 86400 + 14400) := by
  have harg2 : (D * 86400 + 14400) / 86400 = D := by omega
  by_cases hl : dstWallStart (yearOfDay D) ≤ D * 86400 + 14400 ∧
      D * 86400 + 14400 < dstWallEnd (yearOfDay D)
  · have hol : nyOffsetLocal (D * 86400 + 14400) = -14400 := by
      simp only [nyOffsetLocal, harg2]
      rw [if_pos hl]
    rw [hol]
    simp only [nyOffsetUtc]
    rw [show (D * 86400 + 14400 - (-14400 : Int) - 18000) / 86400 = D from by omega]
    simp only [dstWallStart, dstWallEnd] at hl ⊢
    rw [if_pos (by omega)]
  · have hol : nyOffsetLocal (D * 86400 + 14400) = -18000 := by
      simp only [nyOffsetLocal, harg2]
      rw [if_neg hl]
    rw [hol]
    simp only [nyOffsetUtc]
    rw [show (D * 86400 + 14400 - (-18000 : Int) - 18000) / 86400 = D from by omega]
    simp only [dstWallStart, dstWallEnd] at hl ⊢
    rw [if_neg (by omega)]
theorem tradingDayDate_eq (t : Int) :
    tradingDayDate t =
      if (t + nyOffsetUtc t) % 86400 < 14400
      then (t + nyOffsetUtc t) / 86400 - 1 else (t + nyOffsetUtc t) / 86400 := by
  have hb := boundary_bridge t
  simp only [tradingDayDate, boundaryInstant, etDate, etWall]
  exact if_congr hb rfl rfl

/-- C6: For every UTC instant `t`, `TradingDayID(t)` converts `t` to
America/New_York local time and compares it to the 04:00 local boundary:
strictly before 04:00 the trading day is the previous local date, otherwise
the current local date.  In particular 2024-06-10 03:59:59 ET (07:59:59 UTC)
yields `20240609` and 2024-06-10 04:00:00 ET yields `20240610`. -/
theorem trading_day_boundary_spec :
    (∀ t : Int, tradingDayId ⟨t, none⟩ =
        renderDayId (if (t + nyOffsetUtc t) % 86400 < 14400
          then (t + nyOffsetUtc t) / 86400 - 1 else (t + nyOffsetUtc t) / 86400)) ∧
    tradingDayId ⟨1718006399, none⟩ = "20240609" ∧
    tradingDayId ⟨1718006400, none⟩ = "20240610" := by
  refine ⟨fun t => ?_, by decide, by decide⟩
  simp only [tradingDayId, tradingDayForUtc, ensureUtc]
  rw [tradingDayDate_eq]

/-- C10: `trading_day_for_utc` returns a trading day whose UTC bounds
contain the (UTC-normalised) instant, and whose `day_id` is the YYYYMMDD
rendering of the New York local date on which `start_utc` falls. -/
theorem trading_day_for_utc_contains (d : PyDateTime) :
    (tradingDayForUtc d).start_utc ≤ ensureUtc d ∧
      ensureUtc d < (tradingDayForUtc d).end_utc ∧
      (tradingDayForUtc d).day_id =
        renderDayId (etDate (tradingDayForUtc d).start_utc) := by
  simp only [tradingDayForUtc]
  set t := ensureUtc d with ht
  have hdd := tradingDayDate_eq t
  have hbr := boundary_bridge t
  have hou := nyOffsetUtc_cases t
  refine ⟨?_, ?_, ?_⟩
  · by_cases hc : (t + nyOffsetUtc t) % 86400 < 14400
    · rw [if_pos hc] at hdd
      rw [hdd]
      have hol := nyOffsetLocal_cases
        (((t + nyOffsetUtc t) / 86400 - 1) * 86400 + 14400)
      omega
    · rw [if_neg hc] at hdd
      rw [hdd]
      omega
  · by_cases hc : (t + nyOffsetUtc t) % 86400 < 14400
    · rw [if_pos hc] at hdd
      rw [hdd]
      rw [show ((t + nyOffsetUtc t) / 86400 - 1) * 86400 + 14400 + 86400 =
        (t + nyOffsetUtc t) / 86400 * 86400 + 14400 from by ring]
      omega
    · rw [if_neg hc] at hdd
      rw [hdd]
      have hol := nyOffsetLocal_cases
        ((t + nyOffsetUtc t) / 86400 * 86400 + 14400 + 86400)
      omega
  · have hb4 := nyOffsetUtc_at_boundary (tradingDayDate t)
    simp only [etDate, etWall, hb4]
    congr 1
    omega

/- ### Engine gate theorems -/

/-- C1: the rule gate `should_trigger(m, cfg)` accepts exactly when the
volume floor holds, one of the two rVol thresholds holds, price
confirmation holds (with `broke_hod` additionally required when
`require_hod_break`), and the candle is green when `require_green_candle`. -/
theorem should_trigger_rule_gate (m : Metrics) (cfg : ScannerConfig) :
    (shouldTrigger m cfg).1 = true ↔
      (cfg.min_vol_1m ≤ m.vol_1m ∧
        (cfg.rvol_1m_threshold ≤ m.rvol_1m ∨ cfg.rvol_5m_threshold ≤ m.rvol_5m) ∧
        ((cfg.min_pct_change_1m ≤ m.pct_change_1m ∨
            cfg.min_pct_change_5m ≤ m.pct_change_5m) ∧
          (cfg.require_hod_break = true → m.broke_hod = true)) ∧
        (cfg.require_green_candle = true → m.bar.o ≤ m.bar.c)) := by
  simp only [shouldTrigger, apply_ite Prod.fst]
  split_ifs with h1 h2 h3 h4 h5 h6 h7
  · simp only [Bool.false_eq_true, false_iff]
    rintro ⟨hv, -⟩
    exact absurd hv (not_le.mpr h1)
  · simp only [Bool.false_eq_true, false_iff]
    rintro ⟨-, hr, -⟩
    rcases hr with h | h
    · exact absurd h (not_le.mpr h2.1)
    · exact absurd h (not_le.mpr h2.2)
  · simp only [Bool.false_eq_true, false_iff]
    rintro ⟨-, -, ⟨hp, hbi⟩, -⟩
    have hx : ((decide (cfg.min_pct_change_1m ≤ m.pct_change_1m) ||
        decide (cfg.min_pct_change_5m ≤ m.pct_change_5m)) && m.broke_hod) = true := by
      rcases hp with h | h <;> simp [h, hbi h3]
    simp [hx] at h4
  · simp only [Bool.false_eq_true, false_iff]
    rintro ⟨-, -, -, hg⟩
    simp only [Bool.and_eq_true, Bool.not_eq_true', decide_eq_false_iff_not] at h5
    exact absurd (hg h5.1) h5.2
  · simp only [eq_self_iff_true, true_iff]
    have hx : ((decide (cfg.min_pct_change_1m ≤ m.pct_change_1m) ||
        decide (cfg.min_pct_change_5m ≤ m.pct_change_5m)) && m.broke_hod) = true := by
      rcases Bool.eq_false_or_eq_true ((decide (cfg.min_pct_change_1m ≤ m.pct_change_1m) ||
          decide (cfg.min_pct_change_5m ≤ m.pct_change_5m)) && m.broke_hod) with ht | hf
      · exact ht
      · exact absurd (by simp [hf]) h4
    simp only [Bool.and_eq_true, Bool.or_eq_true, decide_eq_true_eq] at hx
    refine ⟨not_lt.mp h1, ?_, ⟨hx.1, fun _ => hx.2⟩, ?_⟩
    · rcases not_and_or.mp h2 with h | h
      · exact Or.inl (not_lt.mp h)
      · exact Or.inr (not_lt.mp h)
    · intro hg
      by_contra hoc
      exact h5 (by simp [hg, hoc])
  · simp only [Bool.false_eq_true, false_iff]
    rintro ⟨-, -, ⟨hp, -⟩, -⟩
    have hx : (decide (cfg.min_pct_change_1m ≤ m.pct_change_1m) ||
        decide (cfg.min_pct_change_5m ≤ m.pct_change_5m)) = true := by
      rcases hp with h | h <;> simp [h]
    simp [hx] at h6
  · simp only [Bool.false_eq_true, false_iff]
    rintro ⟨-, -, -, hg⟩
    simp only [Bool.and_eq_true, Bool.not_eq_true', decide_eq_false_iff_not] at h7
    exact absurd (hg h7.1) h7.2
  · simp only [eq_self_iff_true, true_iff]
    have hor : (cfg.min_pct_change_1m ≤ m.pct_change_1m ∨
        cfg.min_pct_change_5m ≤ m.pct_change_5m) := by
      have := h6
      simp only [Bool.not_eq_true', Bool.or_eq_false_iff, decide_eq_false_iff_not] at this
      tauto
    refine ⟨not_lt.mp h1, ?_, ⟨hor, fun hh => absurd hh h3⟩, ?_⟩
    · rcases not_and_or.mp h2 with h | h
      · exact Or.inl (not_lt.mp h)
      · exact Or.inr (not_lt.mp h)
    · intro hg
      by_contra hoc
      exact h7 (by simp [hg, hoc])

/-- C1 witness: a concrete breakout metrics record passes the gate. -/
theorem should_trigger_rule_gate_witness : (shouldTrigger mEx cfgEx).1 = true :=
  (should_trigger_rule_gate mEx cfgEx).mpr (by decide)

/-- C2: the cooldown gate allows a trigger exactly when no prior event
exists, or the most recent event is older than `now − cooldown_minutes`, or
`realert_on_new_hod` is set and the current `hod` strictly exceeds the
previous event's; with `realert_on_new_hod` unset, any event inside the
window blocks. -/
theorem allow_trigger_with_cooldown_gate (lastEv : Option StoredTriggerEvent)
    (m : Metrics) (cfg : ScannerConfig) (now : Int) :
    (allowTriggerWithCooldown lastEv m cfg now = true ↔
      (lastEv = none ∨ ∃ ev, lastEv = some ev ∧
        (ev.triggered_at < now - 60 * cfg.cooldown_minutes ∨
          (cfg.realert_on_new_hod = true ∧ ev.hod.getD 0 < m.hod)))) ∧
    (∀ ev, lastEv = some ev → cfg.realert_on_new_hod = false →
      ¬ ev.triggered_at < now - 60 * cfg.cooldown_minutes →
      allowTriggerWithCooldown lastEv m cfg now = false) := by
  cases lastEv with
  | none => simp [allowTriggerWithCooldown]
  | some ev =>
    simp only [allowTriggerWithCooldown]
    constructor
    · split_ifs with h1 h2 <;>
        simp_all [Bool.not_eq_true, decide_eq_true_eq]
    · intro ev' hev hre hlt
      cases hev
      split_ifs with h1 h2 <;> simp_all

/-- C2 witness: with re-alert off, an event one minute old blocks a trigger
two minutes later under a 15-minute cooldown. -/
theorem allow_trigger_with_cooldown_gate_witness :
    allowTriggerWithCooldown (some evEx) mEx cfgEx 120 = false :=
  (allow_trigger_with_cooldown_gate (some evEx) mEx cfgEx 120).2 evEx rfl
    (by decide) (by decide)

/- ### Metric computation: the broke_hod flag -/

/-- C3 counterexample: on six bars whose last bar prints a new high, with no
`prev_hod` in the HOD state, `compute_metrics` reports `broke_hod = true`
(the claim's "broke_hod is false when prev_hod is not known" fails: the
source falls back to the maximum high over the earlier bars). -/
theorem compute_metrics_fallback_cex :
    (computeMetrics "AAA" cexBars 45 10 none).map Metrics.broke_hod = some true := by
  decide

/-- C3 amended: with at least 6 bars, `broke_hod` is `last.h > prev_hod`
when the HOD state carries `prev_hod`; when it does not, the engine
approximates `prev_hod` by the maximum high over all bars but the last and
compares against that (so `broke_hod` is not necessarily false). -/
theorem compute_metrics_broke_hod (symbol : String) (bars : List Bar1m)
    (lookback : Int) (hod : ℚ) (prior_hod : Option ℚ) (h6 : 6 ≤ bars.length) :
    (computeMetrics symbol bars lookback hod prior_hod).map Metrics.broke_hod =
      some (match prior_hod with
        | some p => decide (p < (bars.getD (bars.length - 1) dfltBar).h)
        | none => decide (pyMax ((bars.dropLast).map (·.h)) <
            (bars.getD (bars.length - 1) dfltBar).h)) := by
  have hne : bars ≠ [] := by
    intro h
    rw [h] at h6
    simp at h6
  have hlt : ¬ bars.length < 6 := by omega
  cases prior_hod with
  | some p =>
    simp only [computeMetrics]
    rw [if_neg hne, if_neg hlt]
    rfl
  | none =>
    simp only [computeMetrics]
    rw [if_neg hne, if_neg hlt, if_pos (show 2 ≤ bars.length by omega)]
    rfl

/-- C3 amended witness: with a known `prev_hod = 1` under a last high of 2,
the flag evaluates to true. -/
theorem compute_metrics_broke_hod_witness :
    (computeMetrics "W" cexBars 45 10 (some 1)).map Metrics.broke_hod = some true := by
  rw [compute_metrics_broke_hod "W" cexBars 45 10 (some 1) (by decide)]
  decide

/- ### Bar store theorems -/

/-- C4 counterexample: a bar whose `ts` equals the `ts` at the head of the
stored list is not ignored; `push_bar` prepends it anyway, so the stored
state changes (duplicate suppression lives in the ingestor callback, not in
`push_bar`). -/
theorem push_bar_dup_cex :
    (cexSt.items.head?).map Bar1m.ts = some cexDup.ts ∧
      pushBar cexSt cexDup 120 ≠ cexSt := by
  decide

/-- C4 amended: for `keep ≥ 1`, `push_bar` unconditionally prepends the bar,
truncates the list to `keep` entries and refreshes the 36-hour TTL; no
duplicate-`ts` check is performed. -/
theorem push_bar_spec (st : BarListState) (bar : Bar1m) (keep : Int)
    (hk : 1 ≤ keep) :
    (pushBar st bar keep).items = (bar :: st.items).take keep.toNat ∧
      (pushBar st bar keep).items.head? = some bar ∧
      (pushBar st bar keep).items.length ≤ keep.toNat ∧
      (pushBar st bar keep).ttlSeconds = some 129600 := by
  simp only [pushBar]
  have h1 : (max (keep - 1) 0 + 1).toNat = keep.toNat := by omega
  rw [h1]
  obtain ⟨n, hn⟩ : ∃ n, keep.toNat = n + 1 := ⟨keep.toNat - 1, by omega⟩
  refine ⟨rfl, ?_, ?_, by norm_num⟩
  · rw [hn, List.take_succ_cons, List.head?_cons]
  · exact le_trans (List.length_take_le _ _) (le_refl _)

/-- C4 amended witness: pushing the duplicate-`ts` bar onto the one-entry
store with `keep = 120`. -/
theorem push_bar_spec_witness :
    (pushBar cexSt cexDup 120).items = (cexDup :: cexSt.items).take (120 : Int).toNat ∧
      (pushBar cexSt cexDup 120).items.head? = some cexDup ∧
      (pushBar cexSt cexDup 120).items.length ≤ (120 : Int).toNat ∧
      (pushBar cexSt cexDup 120).ttlSeconds = some 129600 :=
  push_bar_spec cexSt cexDup 120 (by decide)

/-- C5 counterexample: with `minutesWanted = 0` the claim's bound
`minutes + 6` fails; the source reads `max(minutes + 6, 10)` entries, and
ten stored bars all come back. -/
theorem fetch_bars_cex : ¬ ((fetchBarsSym cexRaw10 0).length ≤ 6) := by decide

/-- C5 amended: per symbol, `fetch_bars` returns at most
`max(minutesWanted + 6, 10)` of the most recently stored entries; when the
parseable stored entries are newest-first (strictly decreasing `ts`) the
result is oldest-first (strictly increasing `ts`); malformed entries are
skipped rather than raising, and every returned bar comes from the stored
window. -/
theorem fetch_bars_spec (raw : List (Option Bar1m)) (minutes : Int)
    (hsorted : List.Pairwise (fun a b : Bar1m => b.ts < a.ts) (raw.filterMap id)) :
    (fetchBarsSym raw minutes).length ≤ (max (minutes + 6) 10).toNat ∧
      List.Pairwise (fun a b : Bar1m => a.ts < b.ts) (fetchBarsSym raw minutes) ∧
      ∀ b ∈ fetchBarsSym raw minutes,
        some b ∈ raw.take (max (minutes + 6) 10).toNat := by
  refine ⟨?_, ?_, ?_⟩
  · simp only [fetchBarsSym]
    calc ((raw.take (max (minutes + 6) 10).toNat).reverse.filterMap id).length
        ≤ (raw.take (max (minutes + 6) 10).toNat).reverse.length :=
          List.length_filterMap_le _ _
      _ = (raw.take (max (minutes + 6) 10).toNat).length := List.length_reverse _
      _ ≤ (max (minutes + 6) 10).toNat := List.length_take_le _ _
  · simp only [fetchBarsSym]
    rw [List.filterMap_reverse]
    rw [List.pairwise_reverse]
    exact List.Pairwise.sublist (List.Sublist.filterMap _ (List.take_sublist _ _)) hsorted
  · intro b hb
    simp only [fetchBarsSym, List.mem_filterMap, List.mem_reverse] at hb
    obtain ⟨a, ha, hab⟩ := hb
    simp only [id_eq] at hab
    subst hab
    exact ha

/-- C5 amended witness: three parseable newest-first entries with one
malformed entry in between. -/
theorem fetch_bars_spec_witness :
    (fetchBarsSym wRaw 1).length ≤ (max ((1 : Int) + 6) 10).toNat ∧
      List.Pairwise (fun a b : Bar1m => a.ts < b.ts) (fetchBarsSym wRaw 1) ∧
      ∀ b ∈ fetchBarsSym wRaw 1, some b ∈ wRaw.take (max ((1 : Int) + 6) 10).toNat :=
  fetch_bars_spec wRaw 1 (by decide)

/-- C8: `rebuild_hod_state_from_bars` is idempotent over a fixed stored bar
list: a second call yields exactly the same stored state and returned
triple as the first. -/
theorem rebuild_hod_idempotent (st : HodState) (bars : List Bar1m) :
    rebuildHodStateFromBars (rebuildHodStateFromBars st bars).1 bars =
      rebuildHodStateFromBars st bars := by
  by_cases h : bars = []
  · subst h
    rfl
  · simp only [rebuildHodStateFromBars, if_neg h]

/- ### HOD state invariant -/

/-- The seed of a left max-fold bounds the result. -/
theorem foldl_max_init_le (l : List ℚ) (a : ℚ) : a ≤ l.foldl max a := by
  induction l generalizing a with
  | nil => exact le_refl a
  | cons b bs ih => exact le_trans (le_max_left a b) (ih (max a b))

/-- Every member of the list bounds a left max-fold from below. -/
theorem foldl_max_le_of_mem (l : List ℚ) (a x : ℚ) (hx : x ∈ l) :
    x ≤ l.foldl max a := by
  induction l generalizing a with
  | nil => cases hx
  | cons b bs ih =>
    rcases List.mem_cons.mp hx with rfl | h
    · exact le_trans (le_max_right a x) (foldl_max_init_le bs (max a x))
    · exact ih (max a b) h

/-- A left max-fold over rationals returns its seed or a member. -/
theorem foldl_max_mem (l : List ℚ) (a : ℚ) : l.foldl max a ∈ a :: l := by
  induction l generalizing a with
  | nil => simp
  | cons b bs ih =>
    simp only [List.foldl_cons]
    rcases List.mem_cons.mp (ih (max a b)) with h | h
    · rcases max_choice a b with hm | hm
      · rw [h, hm]
        exact List.mem_cons_self _ _
      · rw [h, hm]
        exact List.mem_cons_of_mem _ (List.mem_cons_self _ _)
    · exact List.mem_cons_of_mem _ (List.mem_cons_of_mem _ h)

/-- Python's `max` dominates every member. -/
theorem le_pyMax (l : List ℚ) (x : ℚ) (hx : x ∈ l) : x ≤ pyMax l := by
  cases l with
  | nil => cases hx
  | cons a as =>
    rcases List.mem_cons.mp hx with rfl | h
    · exact foldl_max_init_le as x
    · exact foldl_max_le_of_mem as a x h

/-- Python's `max` of a nonempty sequence is one of its members. -/
theorem pyMax_mem (l : List ℚ) (h : l ≠ []) : pyMax l ∈ l := by
  cases l with
  | nil => exact absurd rfl h
  | cons a as => exact foldl_max_mem as a

/-- Python's `max` of a nonempty sequence of non-negatives is non-negative. -/
theorem pyMax_nonneg (l : List ℚ) (hne : l ≠ []) (h : ∀ x ∈ l, 0 ≤ x) :
    0 ≤ pyMax l :=
  h _ (pyMax_mem l hne)

/-- Invariant preservation for any interleaving of HOD updates and
rebuilds, by induction over the operation sequence with a generalized
starting state. -/
theorem hod_fold_inv (ops : List HodOp) (st : HodState) (acc : Option ℚ)
    (hn : ∀ op ∈ ops, match op with
      | HodOp.update h _ => 0 ≤ h
      | HodOp.rebuild bars => ∀ b ∈ bars, 0 ≤ b.h)
    (h1 : ∀ h, st.hod = some h → 0 ≤ h)
    (h2 : ∀ h p, st.hod = some h → st.prev_hod = some p → 0 ≤ p ∧ p ≤ h)
    (h3 : ∀ hb, acc = some hb → ∃ h, st.hod = some h ∧ hb ≤ h) :
    (∀ h, (ops.foldl applyHodOp st).hod = some h → 0 ≤ h) ∧
    (∀ h p, (ops.foldl applyHodOp st).hod = some h →
      (ops.foldl applyHodOp st).prev_hod = some p → 0 ≤ p ∧ p ≤ h) ∧
    (∀ hb, ops.foldl (fun a op => (opLastHigh op).orElse (fun _ => a)) acc = some hb →
      ∃ h, (ops.foldl applyHodOp st).hod = some h ∧ hb ≤ h) := by
  induction ops generalizing st acc with
  | nil => exact ⟨h1, h2, h3⟩
  | cons op rest ih =>
    simp only [List.foldl_cons]
    have hop := hn op (List.mem_cons_self _ _)
    have hrest : ∀ o ∈ rest, match o with
        | HodOp.update h _ => 0 ≤ h
        | HodOp.rebuild bars => ∀ b ∈ bars, 0 ≤ b.h :=
      fun o ho => hn o (List.mem_cons_of_mem _ ho)
    cases op with
    | update hv ts =>
      apply ih _ _ hrest
      · intro h hh
        simp only [applyHodOp, updateHodState] at hh
        cases hst : st.hod with
        | none =>
          rw [hst] at hh
          simp at hh
          subst hh
          exact hop
        | some prior =>
          rw [hst] at hh
          simp at hh
          subst hh
          exact le_max_of_le_right hop
      · intro h p hh hp
        simp only [applyHodOp, updateHodState] at hh hp
        cases hst : st.hod with
        | none =>
          rw [hst] at hp
          simp at hp
        | some prior =>
          rw [hst] at hh hp
          simp at hh hp
          subst hh
          rw [← hp]
          exact ⟨h1 prior hst, le_max_left _ _⟩
      · intro hb hacc
        simp only [opLastHigh, Option.orElse] at hacc
        simp at hacc
        subst hacc
        simp only [applyHodOp, updateHodState]
        cases hst : st.hod with
        | none => exact ⟨hv, rfl, le_refl hv⟩
        | some prior => exact ⟨max prior hv, rfl, le_max_right _ _⟩
    | rebuild bars =>
      by_cases hbe : bars = []
      · subst hbe
        apply ih _ _ hrest
        · intro h hh
          simp only [applyHodOp, rebuildHodStateFromBars, if_pos rfl] at hh
          exact h1 h hh
        · intro h p hh hp
          simp only [applyHodOp, rebuildHodStateFromBars, if_pos rfl] at hh hp
          exact h2 h p hh hp
        · intro hb hacc
          simp only [opLastHigh, Option.orElse] at hacc
          simp only [applyHodOp, rebuildHodStateFromBars, if_pos rfl]
          exact h3 hb hacc
      · apply ih _ _ hrest
        · intro h hh
          simp only [applyHodOp, rebuildHodStateFromBars, if_neg hbe] at hh
          rw [Option.some_inj] at hh
          subst hh
          apply pyMax_nonneg
          · simp [hbe]
          · intro x hx
            obtain ⟨b, hbm, hbx⟩ := List.mem_map.mp hx
            exact hbx ▸ hop b hbm
        · intro h p hh hp
          simp only [applyHodOp, rebuildHodStateFromBars, if_neg hbe] at hh hp
          rw [Option.some_inj] at hh
          subst hh
          by_cases h2b : 2 ≤ bars.length
          · rw [if_pos h2b] at hp
            rw [Option.some_inj] at hp
            rw [← hp]
            have hdlne : (bars.dropLast.map (·.h)) ≠ [] := by
              simp only [ne_eq, List.map_eq_nil_iff]
              intro hdl
              have hlen := congrArg List.length hdl
              simp only [List.length_dropLast, List.length_nil] at hlen
              omega
            constructor
            · apply pyMax_nonneg _ hdlne
              intro x hx
              obtain ⟨b, hbm, hbx⟩ := List.mem_map.mp hx
              exact hbx ▸ hop b (List.dropLast_subset _ hbm)
            · have hmem := pyMax_mem _ hdlne
              obtain ⟨b, hbm, hbx⟩ := List.mem_map.mp hmem
              rw [← hbx]
              exact le_pyMax _ _ (List.mem_map_of_mem _ (List.dropLast_subset _ hbm))
          · rw [if_neg h2b] at hp
            simp at hp
        · intro hb hacc
          simp only [applyHodOp, rebuildHodStateFromBars, if_neg hbe]
          cases hbars : bars with
          | nil => exact absurd hbars hbe
          | cons b0 bs =>
            rw [hbars] at hacc
            simp only [opLastHigh, Option.orElse] at hacc
            rw [Option.some_inj] at hacc
            subst hacc
            refine ⟨pyMax ((b0 :: bs).map (·.h)), rfl, ?_⟩
            apply le_pyMax
            apply List.mem_map_of_mem
            rw [List.getLastD_cons]
            exact List.getLastD_mem_cons bs b0

/-- C7: after any sequence of `UpdateHOD`/`RebuildHOD` operations with
non-negative bar highs, the stored record satisfies `hod ≥ prev_hod ≥ 0`
whenever both fields are present, and `hod` dominates the high of the bar
last applied. -/
theorem hod_state_invariant (ops : List HodOp) (hn : opsNonneg ops) :
    (∀ h p, (applyHodOps ops).hod = some h → (applyHodOps ops).prev_hod = some p →
      0 ≤ p ∧ p ≤ h) ∧
    (∀ hb, lastAppliedHigh ops = some hb →
      ∃ h, (applyHodOps ops).hod = some h ∧ hb ≤ h) := by
  have h := hod_fold_inv ops ⟨none, none, none⟩ none hn (by simp) (by simp) (by simp)
  exact ⟨h.2.1, h.2.2⟩

/-- C7 witness: an update, a rebuild and another update with non-negative
highs; the stored hod dominates the last applied high 7. -/
theorem hod_state_invariant_witness :
    opsNonneg wOps ∧ ∃ h, (applyHodOps wOps).hod = some h ∧ (7 : ℚ) ≤ h := by
  have hn : opsNonneg wOps := by
    intro op hop
    simp only [wOps, List.mem_cons, List.not_mem_nil, or_false] at hop
    rcases hop with rfl | rfl | rfl
    · norm_num
    · intro b hb
      simp only [List.mem_cons, List.not_mem_nil, or_false] at hb
      rcases hb with rfl | rfl <;> norm_num
    · norm_num
  exact ⟨hn, (hod_state_invariant wOps hn).2 7 (by decide)⟩

/- ### Push-notification idempotency -/

/-- Each per-user step either leaves the accumulator unchanged or, when the
idempotency key was absent, adds the key and records exactly one attempt. -/
theorem notifyStep_cases (trigId : Int) (ev : PushEvent)
    (acc : List String × List (Int × Int)) (s : PushUserSettings) :
    notifyStep trigId ev acc s = acc ∨
      (pushoverSentKey trigId s.user_id ∉ acc.1 ∧
        notifyStep trigId ev acc s =
          (pushoverSentKey trigId s.user_id :: acc.1, acc.2 ++ [(trigId, s.user_id)])) := by
  simp only [notifyStep]
  split_ifs with h1 h2 h3 h4
  · exact Or.inl rfl
  · exact Or.inl rfl
  · exact Or.inl rfl
  · exact Or.inl rfl
  · exact Or.inr ⟨h4, rfl⟩

/-- Over one worker run's user loop the cache only grows, and the attempts
for a fixed `(event, user)` pair grow by at most one, only when the key was
absent, in which case the key is present afterwards. -/
theorem notifyFold_spec (trigId uid : Int) (ev : PushEvent)
    (users : List PushUserSettings) (acc : List String × List (Int × Int)) :
    (∀ k ∈ acc.1, k ∈ (users.foldl (notifyStep trigId ev) acc).1) ∧
      ((users.foldl (notifyStep trigId ev) acc).2.count (trigId, uid) =
          acc.2.count (trigId, uid) ∨
        ((users.foldl (notifyStep trigId ev) acc).2.count (trigId, uid) =
            acc.2.count (trigId, uid) + 1 ∧
          pushoverSentKey trigId uid ∉ acc.1 ∧
          pushoverSentKey trigId uid ∈ (users.foldl (notifyStep trigId ev) acc).1)) := by
  induction users generalizing acc with
  | nil => exact ⟨fun k hk => hk, Or.inl rfl⟩
  | cons s rest ih =>
    simp only [List.foldl_cons]
    rcases notifyStep_cases trigId ev acc s with heq | ⟨hnk, heq⟩
    · rw [heq]
      exact ih acc
    · rw [heq]
      obtain ⟨mono, hd⟩ :=
        ih (pushoverSentKey trigId s.user_id :: acc.1, acc.2 ++ [(trigId, s.user_id)])
      refine ⟨fun k hk => mono k (List.mem_cons_of_mem _ hk), ?_⟩
      by_cases hu : s.user_id = uid
      · subst hu
        have hcnt : (acc.2 ++ [(trigId, s.user_id)]).count (trigId, s.user_id) =
            acc.2.count (trigId, s.user_id) + 1 := by
          rw [List.count_append]
          simp
        rcases hd with hc | ⟨hc, hk, -⟩
        · refine Or.inr ⟨?_, hnk, ?_⟩
          · rw [hc, hcnt]
          · exact mono _ (List.mem_cons_self _ _)
        · exact absurd (List.mem_cons_self _ _) hk
      · have hcnt : (acc.2 ++ [(trigId, s.user_id)]).count (trigId, uid) =
            acc.2.count (trigId, uid) := by
          rw [List.count_append]
          have : ((trigId, uid) : Int × Int) ≠ (trigId, s.user_id) := by
            intro hcontra
            exact hu (by injection hcontra with h1 h2; exact h2.symm)
          simp [List.count_singleton', this]
        rcases hd with hc | ⟨hc, hk, hki⟩
        · refine Or.inl ?_
          rw [hc, hcnt]
        · refine Or.inr ⟨by rw [hc, hcnt], fun hmem => hk (List.mem_cons_of_mem _ hmem), hki⟩

/-- A single worker run records zero attempts for a pair, or exactly one
when its key was absent from the cache, planting the key. -/
theorem notifyRun_spec (appToken : String) (events : List PushEvent)
    (trigId uid : Int) (users : List PushUserSettings) (cache : List String) :
    (∀ k ∈ cache, k ∈ (notifyPushoverRun appToken events trigId users cache).1) ∧
      ((notifyPushoverRun appToken events trigId users cache).2.count (trigId, uid) = 0 ∨
        ((notifyPushoverRun appToken events trigId users cache).2.count (trigId, uid) = 1 ∧
          pushoverSentKey trigId uid ∉ cache ∧
          pushoverSentKey trigId uid ∈ (notifyPushoverRun appToken events trigId users cache).1)) := by
  simp only [notifyPushoverRun]
  split_ifs with h1
  · exact ⟨fun k hk => hk, Or.inl rfl⟩
  · cases hfind : events.find? (fun e => decide (e.id = trigId)) with
    | none => exact ⟨fun k hk => hk, Or.inl rfl⟩
    | some ev =>
      obtain ⟨mono, hd⟩ := notifyFold_spec trigId uid ev
        (notifyCandidates users ev.triggered_at) (cache, [])
      refine ⟨mono, ?_⟩
      rcases hd with hc | ⟨hc, hk, hki⟩
      · exact Or.inl (by simpa using hc)
      · exact Or.inr ⟨by simpa using hc, hk, hki⟩

/-- Any sequence of worker runs preserves the at-most-one invariant for a
fixed pair, given the key is cached once an attempt exists. -/
theorem notifyRuns_inv (appToken : String) (events : List PushEvent)
    (trigId uid : Int) (runs : List (List PushUserSettings))
    (acc : List String × List (Int × Int))
    (h1 : acc.2.count (trigId, uid) ≤ 1)
    (h2 : acc.2.count (trigId, uid) = 1 → pushoverSentKey trigId uid ∈ acc.1) :
    (runs.foldl (fun acc users =>
      let r := notifyPushoverRun appToken events trigId users acc.1
      (r.1, acc.2 ++ r.2)) acc).2.count (trigId, uid) ≤ 1 := by
  induction runs generalizing acc with
  | nil => exact h1
  | cons users rest ih =>
    simp only [List.foldl_cons]
    obtain ⟨mono, hd⟩ := notifyRun_spec appToken events trigId uid users acc.1
    apply ih
    · rw [List.count_append]
      rcases hd with hc | ⟨hc, hk, -⟩
      · rw [hc]
        omega
      · rw [hc]
        have : acc.2.count (trigId, uid) = 0 := by
          by_contra hnz
          have : acc.2.count (trigId, uid) = 1 := by omega
          exact hk (h2 this)
        omega
    · intro htot
      rw [List.count_append] at htot
      rcases hd with hc | ⟨hc, -, hki⟩
      · rw [hc] at htot
        exact mono _ (h2 (by omega))
      · exact hki

/-- C9: for every `(event_id, user_id)` pair, across any number of worker
runs for the same event against a persistent idempotency cache (the
within-TTL window), at most one push attempt is recorded: `cache.add` on
`scanner:pushover:sent:{event_id}:{user_id}` guards the send and an
already-present key skips the user. -/
theorem pushover_push_idempotent (appToken : String) (events : List PushEvent)
    (trigId : Int) (runs : List (List PushUserSettings)) (cache : List String)
    (uid : Int) :
    ((notifyPushoverRuns appToken events trigId runs cache).2).count (trigId, uid) ≤ 1 := by
  simp only [notifyPushoverRuns]
  apply notifyRuns_inv
  · simp
  · intro h
    simp at h
